import Mathlib

/-!
Verification of the chartr event/actor store, the timeline renderer and the
self-describing-artifact codec.  The definitions below are a shallow embedding
of the Rust sources: `BTreeMap` is modelled as a key-sorted association list,
`BTreeSet<Event>` as a list sorted by the event ordering key, machine integers
as `Int`/`Nat`, `f64` configuration values as `ℚ`, and fallible calls as
`Except`.
-/

namespace Chartr

/-! ### Rust String ordering: lexicographic on the character sequence.
UTF-8 byte order coincides with code-point order, so comparing characters by
code point models Rust's byte-wise String ordering. -/

def ltCharsB : List Char → List Char → Bool
  | [], [] => false
  | [], _ :: _ => true
  | _ :: _, [] => false
  | c1 :: r1, c2 :: r2 =>
    if c1 = c2 then ltCharsB r1 r2 else decide (c1.toNat < c2.toNat)

def strLt (a b : String) : Prop := ltCharsB a.data b.data = true

instance : DecidableRel strLt := fun a b => by
  unfold strLt
  infer_instance

theorem charToNat_inj {c1 c2 : Char} (h : c1.toNat = c2.toNat) : c1 = c2 :=
  Char.eq_of_val_eq (UInt32.eq_of_val_eq (Fin.eq_of_val_eq h))

theorem ltCharsB_irrefl (l : List Char) : ltCharsB l l = false := by
  induction l with
  | nil => rfl
  | cons c r ih => simp [ltCharsB, ih]

theorem ltCharsB_trans {a b c : List Char} (h1 : ltCharsB a b = true)
    (h2 : ltCharsB b c = true) : ltCharsB a c = true := by
  induction a generalizing b c with
  | nil =>
    cases b with
    | nil => simp [ltCharsB] at h1
    | cons c2 r2 =>
      cases c with
      | nil => simp [ltCharsB] at h2
      | cons c3 r3 => rfl
  | cons c1 r1 ih =>
    cases b with
    | nil => simp [ltCharsB] at h1
    | cons c2 r2 =>
      cases c with
      | nil => simp [ltCharsB] at h2
      | cons c3 r3 =>
        simp only [ltCharsB] at h1 h2 ⊢
        by_cases e12 : c1 = c2
        · subst e12
          rw [if_pos rfl] at h1
          by_cases e13 : c1 = c3
          · subst e13
            rw [if_pos rfl] at h2 ⊢
            exact ih h1 h2
          · rw [if_neg e13] at h2 ⊢
            exact h2
        · rw [if_neg e12] at h1
          have hn1 : c1.toNat < c2.toNat := of_decide_eq_true h1
          by_cases e23 : c2 = c3
          · have e13 : c1 ≠ c3 := fun he => e12 (he.trans e23.symm)
            rw [if_neg e13]
            rw [← e23]
            exact h1
          · rw [if_neg e23] at h2
            have hn2 : c2.toNat < c3.toNat := of_decide_eq_true h2
            have hn3 : c1.toNat < c3.toNat := lt_trans hn1 hn2
            have e13 : c1 ≠ c3 := fun he => absurd (he ▸ hn3) (lt_irrefl _)
            rw [if_neg e13]
            exact decide_eq_true hn3

theorem ltCharsB_total {a b : List Char} (hne : a ≠ b) :
    ltCharsB a b = true ∨ ltCharsB b a = true := by
  induction a generalizing b with
  | nil =>
    cases b with
    | nil => exact absurd rfl hne
    | cons c2 r2 => exact Or.inl rfl
  | cons c1 r1 ih =>
    cases b with
    | nil => exact Or.inr rfl
    | cons c2 r2 =>
      simp only [ltCharsB]
      by_cases e12 : c1 = c2
      · subst e12
        have hr : r1 ≠ r2 := fun he => hne (by rw [he])
        rw [if_pos rfl, if_pos rfl]
        exact ih hr
      · have e21 : c2 ≠ c1 := Ne.symm e12
        rw [if_neg e12, if_neg e21]
        have hnn : c1.toNat ≠ c2.toNat := fun he => e12 (charToNat_inj he)
        rcases Nat.lt_or_ge c1.toNat c2.toNat with h | h
        · exact Or.inl (decide_eq_true h)
        · exact Or.inr (decide_eq_true (lt_of_le_of_ne h (Ne.symm hnn)))

theorem strLt_trans {a b c : String} (h1 : strLt a b) (h2 : strLt b c) : strLt a c :=
  ltCharsB_trans h1 h2

@[simp] theorem strLt_irrefl (a : String) : ¬ strLt a a := by
  unfold strLt
  simp [ltCharsB_irrefl]

theorem strLt_asymm {a b : String} (h : strLt a b) : ¬ strLt b a := fun h2 =>
  strLt_irrefl a (strLt_trans h h2)

theorem strLt_ne {a b : String} (h : strLt a b) : a ≠ b := by
  intro he
  subst he
  exact strLt_irrefl a h

theorem strLt_total {a b : String} (hne : a ≠ b) : strLt a b ∨ strLt b a := by
  have hd : a.data ≠ b.data := fun h => hne (String.ext h)
  exact ltCharsB_total hd

theorem strLt_of_not_of_ne {a b : String} (h1 : ¬ strLt a b) (h2 : a ≠ b) : strLt b a :=
  (strLt_total h2).resolve_left h1

/-! ### std::collections::BTreeMap, specialised to String keys.
`btreeInsert` mirrors `BTreeMap::insert`: it replaces the value when the key
is present and returns the previous value. -/

def btreeInsert {β : Type} : List (String × β) → String → β → List (String × β) × Option β
  | [], k, v => ([(k, v)], none)
  | (k1, v1) :: rest, k, v =>
    if strLt k k1 then ((k, v) :: (k1, v1) :: rest, none)
    else if k = k1 then ((k, v) :: rest, some v1)
    else
      let p := btreeInsert rest k v
      ((k1, v1) :: p.1, p.2)

def btreeLookup {β : Type} : List (String × β) → String → Option β
  | [], _ => none
  | (k1, v1) :: rest, k => if k = k1 then some v1 else btreeLookup rest k

def btreeKeys {β : Type} (m : List (String × β)) : List String := m.map Prod.fst

/-! ### chartr-core/src/event.rs : the data model -/

inductive EventKind
  | Span (start : Int) (duration : Option Nat)
  | Instant (instant : Int)
deriving DecidableEq

structure Event where
  fields : List (String × String)
  kind : EventKind
  value : String
  tooltip : Option String
deriving DecidableEq

def Event.start_time (e : Event) : Int :=
  match e.kind with
  | .Span start _ => start
  | .Instant instant => instant

def Event.end_time (e : Event) : Option Int :=
  match e.kind with
  | .Span start (some duration) => some (start + (duration : Int))
  | .Span _ none => none
  | .Instant instant => some instant

/-- Rust `i64::cmp`. -/
def cmpInt (a b : Int) : Ordering := if a < b then .lt else if a = b then .eq else .gt

/-- Rust `Option<i64>::cmp`: `None` sorts before `Some`. -/
def cmpOptionInt : Option Int → Option Int → Ordering
  | none, none => .eq
  | none, some _ => .lt
  | some _, none => .gt
  | some a, some b => cmpInt a b

/-- `impl Ord for Event`: compare by the `(start_time, end_time)` pair. -/
def Event.cmp (a b : Event) : Ordering :=
  (cmpInt a.start_time b.start_time).then (cmpOptionInt a.end_time b.end_time)

/-- `BTreeSet<Event>::insert` on the sorted-list model of the set: the element
is placed by `Event.cmp`; when an `Ord`-equal element is present the set keeps
the old element and drops the new one. -/
def btreeSetInsert : List Event → Event → List Event
  | [], e => [e]
  | e1 :: rest, e =>
    match Event.cmp e e1 with
    | .lt => e :: e1 :: rest
    | .eq => e1 :: rest
    | .gt => e1 :: btreeSetInsert rest e

structure Actor where
  identity : String
  tooltip : Option String
deriving DecidableEq

def Actor.new (identity : String) : Actor := ⟨identity, none⟩

abbrev ActorId := String

structure EventStore where
  actors : List (String × Actor)
  events : List (String × List Event)
deriving DecidableEq

/-- `impl Default for EventStore`. -/
def EventStore.default : EventStore := ⟨[], []⟩

inductive StoreError
  | duplicateActor
  | duplicateEventKey
  | unknownActor (id : String)
deriving DecidableEq

/-- `EventStore::register_actor`.  Note the order of operations in the source:
the insertion into `actors` happens before the `ensure!` check, so a failed
duplicate registration has already replaced the stored `Actor` value. -/
def EventStore.register_actor (s : EventStore) (a : Actor) : Except StoreError ActorId × EventStore :=
  let p := btreeInsert s.actors a.identity a
  match p.2 with
  | some _ => (.error .duplicateActor, { s with actors := p.1 })
  | none =>
    let q := btreeInsert s.events a.identity []
    match q.2 with
    | some _ => (.error .duplicateEventKey, { actors := p.1, events := q.1 })
    | none => (.ok a.identity, { actors := p.1, events := q.1 })

/-- `EventStore::add_event`. -/
def EventStore.add_event (s : EventStore) (a : ActorId) (e : Event) : Except StoreError Unit × EventStore :=
  match btreeLookup s.events a with
  | none => (.error (.unknownActor a), s)
  | some l => (.ok (), { s with events := (btreeInsert s.events a (btreeSetInsert l e)).1 })

/-- `EventStore::all_events`: all events, in events-map key order, each actor's
events in set order. -/
def EventStore.all_events (s : EventStore) : List Event := (s.events.map Prod.snd).flatten

/-- `EventStore::events_for`. -/
def EventStore.events_for (s : EventStore) (a : ActorId) : Except StoreError (List Event) :=
  match btreeLookup s.events a with
  | none => .error (.unknownActor a)
  | some l => .ok l

/-- `EventStore::actors()`: the registered ids, in events-map key order. -/
def EventStore.actorIds (s : EventStore) : List ActorId := btreeKeys s.events

/-- `EventStore::get_actor`; the source `expect`s, modelled by `Option`. -/
def EventStore.get_actor (s : EventStore) (a : ActorId) : Option Actor := btreeLookup s.actors a

/-! ### Mutation sequences, for reachable-store reasoning -/

inductive StoreOp
  | reg (a : Actor)
  | add (id : ActorId) (e : Event)
deriving DecidableEq

def applyOp (s : EventStore) : StoreOp → EventStore
  | .reg a => (s.register_actor a).2
  | .add id e => (s.add_event id e).2

def applyOps (s : EventStore) (ops : List StoreOp) : EventStore := ops.foldl applyOp s

/-! ### The ordering calculus for `Event.cmp` -/

def endLt : Option Int → Option Int → Prop
  | none, none => False
  | none, some _ => True
  | some _, none => False
  | some a, some b => a < b

instance : DecidableRel endLt := fun a b => by
  cases a <;> cases b <;> simp [endLt] <;> infer_instance

/-- The strict order that `Event.cmp` computes. -/
def eventLt (a b : Event) : Prop :=
  a.start_time < b.start_time ∨ (a.start_time = b.start_time ∧ endLt a.end_time b.end_time)

instance : DecidableRel eventLt := fun a b => by
  unfold eventLt; infer_instance

theorem cmpInt_eq_lt {a b : Int} : cmpInt a b = .lt ↔ a < b := by
  unfold cmpInt
  split
  · simp_all
  · split <;> simp_all

theorem cmpInt_eq_eq {a b : Int} : cmpInt a b = .eq ↔ a = b := by
  unfold cmpInt
  split
  · simp_all
    omega
  · split <;> simp_all

theorem cmpInt_eq_gt {a b : Int} : cmpInt a b = .gt ↔ b < a := by
  unfold cmpInt
  split
  · simp_all
    omega
  · split <;> simp_all
    omega

theorem cmpOptionInt_eq_lt {a b : Option Int} : cmpOptionInt a b = .lt ↔ endLt a b := by
  cases a <;> cases b <;> simp [cmpOptionInt, endLt, cmpInt_eq_lt]

theorem cmpOptionInt_eq_eq {a b : Option Int} : cmpOptionInt a b = .eq ↔ a = b := by
  cases a <;> cases b <;> simp [cmpOptionInt, endLt, cmpInt_eq_eq]

theorem cmpOptionInt_eq_gt {a b : Option Int} : cmpOptionInt a b = .gt ↔ endLt b a := by
  cases a <;> cases b <;> simp [cmpOptionInt, endLt, cmpInt_eq_gt]

theorem Event.cmp_eq_lt {a b : Event} : Event.cmp a b = .lt ↔ eventLt a b := by
  unfold Event.cmp eventLt
  rcases h : cmpInt a.start_time b.start_time with _ | _ | _
  · simp only [Ordering.then, true_iff]
    exact Or.inl (cmpInt_eq_lt.mp h)
  · have hs := cmpInt_eq_eq.mp h
    simp [Ordering.then, cmpOptionInt_eq_lt, hs]
  · have hgt := cmpInt_eq_gt.mp h
    simp only [Ordering.then]
    exact iff_of_false (by simp) (by rintro (h1 | ⟨h1, _⟩) <;> omega)

theorem Event.cmp_eq_eq {a b : Event} :
    Event.cmp a b = .eq ↔ a.start_time = b.start_time ∧ a.end_time = b.end_time := by
  unfold Event.cmp
  rcases h : cmpInt a.start_time b.start_time with _ | _ | _
  · have hlt := cmpInt_eq_lt.mp h
    simp only [Ordering.then]
    exact iff_of_false (by simp) (by rintro ⟨h1, _⟩; omega)
  · have hs := cmpInt_eq_eq.mp h
    simp [Ordering.then, cmpOptionInt_eq_eq, hs]
  · have hgt := cmpInt_eq_gt.mp h
    simp only [Ordering.then]
    exact iff_of_false (by simp) (by rintro ⟨h1, _⟩; omega)

theorem Event.cmp_eq_gt {a b : Event} : Event.cmp a b = .gt ↔ eventLt b a := by
  unfold Event.cmp eventLt
  rcases h : cmpInt a.start_time b.start_time with _ | _ | _
  · have hlt := cmpInt_eq_lt.mp h
    simp only [Ordering.then]
    exact iff_of_false (by simp) (by rintro (h1 | ⟨h1, _⟩) <;> omega)
  · have hs := cmpInt_eq_eq.mp h
    simp [Ordering.then, cmpOptionInt_eq_gt, hs]
  · simp only [Ordering.then, true_iff]
    exact Or.inl (cmpInt_eq_gt.mp h)

theorem endLt_trans {a b c : Option Int} (h1 : endLt a b) (h2 : endLt b c) : endLt a c := by
  cases a <;> cases b <;> cases c <;> simp_all [endLt] <;> omega

theorem eventLt_trans {a b c : Event} (h1 : eventLt a b) (h2 : eventLt b c) : eventLt a c := by
  rcases h1 with h1 | ⟨h1, h1e⟩ <;> rcases h2 with h2 | ⟨h2, h2e⟩
  · exact Or.inl (lt_trans h1 h2)
  · exact Or.inl (h2 ▸ h1)
  · exact Or.inl (h1 ▸ h2)
  · exact Or.inr ⟨h1.trans h2, endLt_trans h1e h2e⟩

/-! ### Basic lemmas about the collection models -/

theorem btreeLookup_eq_none {β : Type} {m : List (String × β)} {k : String} :
    btreeLookup m k = none ↔ k ∉ btreeKeys m := by
  induction m with
  | nil => simp [btreeLookup, btreeKeys]
  | cons p rest ih =>
    by_cases h : k = p.1 <;> simp [btreeLookup, btreeKeys, h, ih] at * <;> simp_all [btreeKeys]

theorem btreeLookup_mem {β : Type} {m : List (String × β)} {k : String} {v : β}
    (h : btreeLookup m k = some v) : (k, v) ∈ m := by
  induction m with
  | nil => simp [btreeLookup] at h
  | cons p rest ih =>
    rcases p with ⟨k1, v1⟩
    by_cases hk : k = k1
    · simp [btreeLookup, hk] at h
      simp [hk, h]
    · simp [btreeLookup, hk] at h
      exact List.mem_cons_of_mem _ (ih h)

/-- The key-level shadow of `btreeInsert`. -/
def insertKey : List String → String → List String
  | [], k => [k]
  | k1 :: rest, k =>
    if strLt k k1 then k :: k1 :: rest
    else if k = k1 then k :: rest
    else k1 :: insertKey rest k

theorem btreeKeys_insert {β : Type} (m : List (String × β)) (k : String) (v : β) :
    btreeKeys (btreeInsert m k v).1 = insertKey (btreeKeys m) k := by
  induction m with
  | nil => simp [btreeInsert, btreeKeys, insertKey]
  | cons p rest ih =>
    rcases p with ⟨k1, v1⟩
    by_cases h1 : strLt k k1 <;> by_cases h2 : k = k1 <;>
      simp [btreeInsert, btreeKeys, insertKey, h1, h2] at * <;> simp_all [btreeKeys]

theorem mem_insertKey {l : List String} {k x : String} :
    x ∈ insertKey l k ↔ x = k ∨ x ∈ l := by
  induction l with
  | nil => simp [insertKey]
  | cons k1 rest ih =>
    by_cases h1 : strLt k k1
    · simp [insertKey, h1]
    · by_cases h2 : k = k1
      · subst h2
        simp [insertKey, h1]
      · simp [insertKey, h1, h2, ih]
        tauto

theorem insertKey_of_mem {l : List String} {k : String}
    (hs : List.Pairwise (fun a b => strLt a b) l) (hm : k ∈ l) : insertKey l k = l := by
  induction l with
  | nil => simp at hm
  | cons k1 rest ih =>
    rcases List.pairwise_cons.mp hs with ⟨hall, htail⟩
    rcases List.mem_cons.mp hm with h | h
    · simp [insertKey, h]
    · have hlt : strLt k1 k := hall k h
      have h1 : ¬ strLt k k1 := strLt_asymm hlt
      have h2 : k ≠ k1 := (strLt_ne hlt).symm
      simp [insertKey, h1, h2, ih htail h]

theorem btreeKeys_insert_of_snd_some {β : Type} {m : List (String × β)} {k : String} {v w : β}
    (h : (btreeInsert m k v).2 = some w) : btreeKeys (btreeInsert m k v).1 = btreeKeys m := by
  induction m with
  | nil => simp [btreeInsert] at h
  | cons p rest ih =>
    rcases p with ⟨k1, v1⟩
    by_cases h1 : strLt k k1
    · simp [btreeInsert, h1] at h
    · by_cases h2 : k = k1
      · simp [btreeInsert, h1, h2, btreeKeys]
      · simp [btreeInsert, h1, h2, btreeKeys] at h ⊢
        exact ih h

theorem btreeLookup_insert_self {β : Type} (m : List (String × β)) (k : String) (v : β) :
    btreeLookup (btreeInsert m k v).1 k = some v := by
  induction m with
  | nil => simp [btreeInsert, btreeLookup]
  | cons p rest ih =>
    rcases p with ⟨k1, v1⟩
    by_cases h1 : strLt k k1
    · simp [btreeInsert, btreeLookup, h1]
    · by_cases h2 : k = k1
      · simp [btreeInsert, btreeLookup, h1, h2]
      · simp [btreeInsert, btreeLookup, h1, h2, ih]

theorem btreeLookup_insert_ne {β : Type} (m : List (String × β)) (k k2 : String) (v : β)
    (hne : k2 ≠ k) : btreeLookup (btreeInsert m k v).1 k2 = btreeLookup m k2 := by
  induction m with
  | nil => simp [btreeInsert, btreeLookup, hne]
  | cons p rest ih =>
    rcases p with ⟨k1, v1⟩
    by_cases h1 : strLt k k1
    · simp [btreeInsert, btreeLookup, h1, hne]
    · by_cases h2 : k = k1
      · subst h2
        simp [btreeInsert, btreeLookup, h1, hne]
      · by_cases h3 : k2 = k1 <;> simp [btreeInsert, btreeLookup, h1, h2, h3, ih]

theorem btreeInsert_snd_eq_lookup {β : Type} {m : List (String × β)} (k : String) (v : β)
    (hs : List.Pairwise (fun p q => strLt p.1 q.1) m) :
    (btreeInsert m k v).2 = btreeLookup m k := by
  induction m with
  | nil => simp [btreeInsert, btreeLookup]
  | cons p rest ih =>
    rcases p with ⟨k1, v1⟩
    rcases List.pairwise_cons.mp hs with ⟨hall, htail⟩
    by_cases h1 : strLt k k1
    · have hnone : btreeLookup rest k = none := by
        rw [btreeLookup_eq_none]
        intro hmem
        rcases List.mem_map.mp hmem with ⟨q, hq, hq1⟩
        have := hall q hq
        rw [hq1] at this
        exact absurd (strLt_trans h1 this) (strLt_irrefl k)
      have h2 : k ≠ k1 := strLt_ne h1
      simp [btreeInsert, btreeLookup, h1, h2, hnone]
    · by_cases h2 : k = k1
      · simp [btreeInsert, btreeLookup, h1, h2]
      · simp [btreeInsert, btreeLookup, h1, h2, ih htail]

theorem mem_btreeInsert {β : Type} {m : List (String × β)} {k : String} {v : β} {p : String × β}
    (h : p ∈ (btreeInsert m k v).1) : p = (k, v) ∨ p ∈ m := by
  induction m with
  | nil =>
    rw [show (btreeInsert ([] : List (String × β)) k v).1 = [(k, v)] from rfl] at h
    exact Or.inl (List.mem_singleton.mp h)
  | cons q rest ih =>
    rcases q with ⟨k1, v1⟩
    by_cases h1 : strLt k k1
    · rw [show (btreeInsert ((k1, v1) :: rest) k v).1 = (k, v) :: (k1, v1) :: rest from by
        simp [btreeInsert, h1]] at h
      rcases List.mem_cons.mp h with h | h
      · exact Or.inl h
      · exact Or.inr h
    · by_cases h2 : k = k1
      · rw [show (btreeInsert ((k1, v1) :: rest) k v).1 = (k, v) :: rest from by
          simp [btreeInsert, h1, h2]] at h
        rcases List.mem_cons.mp h with h | h
        · exact Or.inl h
        · exact Or.inr (List.mem_cons_of_mem _ h)
      · rw [show (btreeInsert ((k1, v1) :: rest) k v).1 = (k1, v1) :: (btreeInsert rest k v).1 from by
          simp [btreeInsert, h1, h2]] at h
        rcases List.mem_cons.mp h with h | h
        · exact Or.inr (h ▸ List.mem_cons_self _ _)
        · rcases ih h with h3 | h3
          · exact Or.inl h3
          · exact Or.inr (List.mem_cons_of_mem _ h3)

theorem btreeInsert_same_value {β : Type} {m : List (String × β)} {k : String} {v : β}
    (hs : List.Pairwise (fun p q => strLt p.1 q.1) m) (h : btreeLookup m k = some v) :
    (btreeInsert m k v).1 = m := by
  induction m with
  | nil => simp [btreeLookup] at h
  | cons p rest ih =>
    rcases p with ⟨k1, v1⟩
    rcases List.pairwise_cons.mp hs with ⟨hall, htail⟩
    by_cases h2 : k = k1
    · subst h2
      rw [show btreeLookup ((k, v1) :: rest) k = some v1 from by simp [btreeLookup]] at h
      have hv : v1 = v := Option.some.inj h
      have h1 : ¬ strLt k k := strLt_irrefl k
      simp [btreeInsert, h1, hv]
    · rw [show btreeLookup ((k1, v1) :: rest) k = btreeLookup rest k from by
        simp [btreeLookup, h2]] at h
      have hk1 : strLt k1 k := by
        have hmem : k ∈ btreeKeys rest := by
          by_contra hc
          rw [btreeLookup_eq_none.mpr hc] at h
          exact Option.noConfusion h
        rcases List.mem_map.mp hmem with ⟨q, hq, hq1⟩
        have h3 := hall q hq
        rwa [hq1] at h3
      have h1 : ¬ strLt k k1 := strLt_asymm hk1
      simp [btreeInsert, h1, h2, ih htail h]

theorem btreeLookup_of_mem {β : Type} {m : List (String × β)} {k : String} {v : β}
    (hs : List.Pairwise (fun p q => strLt p.1 q.1) m) (h : (k, v) ∈ m) :
    btreeLookup m k = some v := by
  induction m with
  | nil => simp at h
  | cons p rest ih =>
    rcases p with ⟨k1, v1⟩
    rcases List.pairwise_cons.mp hs with ⟨hall, htail⟩
    rcases List.mem_cons.mp h with h | h
    · have hk : k = k1 := congrArg Prod.fst h
      have hv : v = v1 := congrArg Prod.snd h
      simp [btreeLookup, hk, hv]
    · have hk1 : strLt k1 k := hall (k, v) h
      have h2 : k ≠ k1 := (strLt_ne hk1).symm
      simp [btreeLookup, h2, ih htail h]

theorem btreeInsert_pairwise {β : Type} {m : List (String × β)} (k : String) (v : β)
    (hs : List.Pairwise (fun p q => strLt p.1 q.1) m) :
    List.Pairwise (fun p q => strLt p.1 q.1) (btreeInsert m k v).1 := by
  induction m with
  | nil =>
    rw [show (btreeInsert ([] : List (String × β)) k v).1 = [(k, v)] from rfl]
    exact List.pairwise_singleton _ _
  | cons p rest ih =>
    rcases p with ⟨k1, v1⟩
    rcases List.pairwise_cons.mp hs with ⟨hall, htail⟩
    by_cases h1 : strLt k k1
    · rw [show (btreeInsert ((k1, v1) :: rest) k v).1 = (k, v) :: (k1, v1) :: rest from by
        simp [btreeInsert, h1]]
      refine List.Pairwise.cons ?_ hs
      intro q hq
      show strLt k q.1
      rcases List.mem_cons.mp hq with h | h
      · rw [h]
        exact h1
      · exact strLt_trans h1 (hall q h)
    · by_cases h2 : k = k1
      · rw [show (btreeInsert ((k1, v1) :: rest) k v).1 = (k, v) :: rest from by
          simp [btreeInsert, h1, h2]]
        refine List.Pairwise.cons ?_ htail
        intro q hq
        show strLt k q.1
        rw [h2]
        exact hall q hq
      · rw [show (btreeInsert ((k1, v1) :: rest) k v).1 = (k1, v1) :: (btreeInsert rest k v).1 from by
          simp [btreeInsert, h1, h2]]
        refine List.Pairwise.cons ?_ (ih htail)
        intro q hq
        show strLt k1 q.1
        rcases mem_btreeInsert hq with h | h
        · rw [h]
          exact strLt_of_not_of_ne h1 h2
        · exact hall q h

/-! ### Lemmas about the event-set model -/

theorem mem_btreeSetInsert {l : List Event} {e x : Event}
    (h : x ∈ btreeSetInsert l e) : x = e ∨ x ∈ l := by
  induction l with
  | nil =>
    rw [show btreeSetInsert [] e = [e] from rfl] at h
    exact Or.inl (List.mem_singleton.mp h)
  | cons e1 rest ih =>
    rcases hc : Event.cmp e e1 with _ | _ | _
    · rw [show btreeSetInsert (e1 :: rest) e = e :: e1 :: rest from by
        simp [btreeSetInsert, hc]] at h
      rcases List.mem_cons.mp h with h | h
      · exact Or.inl h
      · exact Or.inr h
    · rw [show btreeSetInsert (e1 :: rest) e = e1 :: rest from by simp [btreeSetInsert, hc]] at h
      exact Or.inr h
    · rw [show btreeSetInsert (e1 :: rest) e = e1 :: btreeSetInsert rest e from by
        simp [btreeSetInsert, hc]] at h
      rcases List.mem_cons.mp h with h | h
      · exact Or.inr (h ▸ List.mem_cons_self _ _)
      · rcases ih h with h3 | h3
        · exact Or.inl h3
        · exact Or.inr (List.mem_cons_of_mem _ h3)

theorem btreeSetInsert_pairwise {l : List Event} (e : Event)
    (hs : List.Pairwise eventLt l) : List.Pairwise eventLt (btreeSetInsert l e) := by
  induction l with
  | nil =>
    rw [show btreeSetInsert [] e = [e] from rfl]
    exact List.pairwise_singleton _ _
  | cons e1 rest ih =>
    rcases List.pairwise_cons.mp hs with ⟨hall, htail⟩
    rcases hc : Event.cmp e e1 with _ | _ | _
    · rw [show btreeSetInsert (e1 :: rest) e = e :: e1 :: rest from by simp [btreeSetInsert, hc]]
      refine List.Pairwise.cons ?_ hs
      intro x hx
      have he1 : eventLt e e1 := Event.cmp_eq_lt.mp hc
      rcases List.mem_cons.mp hx with h | h
      · exact h ▸ he1
      · exact eventLt_trans he1 (hall x h)
    · rw [show btreeSetInsert (e1 :: rest) e = e1 :: rest from by simp [btreeSetInsert, hc]]
      exact hs
    · rw [show btreeSetInsert (e1 :: rest) e = e1 :: btreeSetInsert rest e from by
        simp [btreeSetInsert, hc]]
      refine List.Pairwise.cons ?_ (ih htail)
      intro x hx
      rcases mem_btreeSetInsert hx with h | h
      · exact h ▸ Event.cmp_eq_gt.mp hc
      · exact hall x h

theorem btreeSetInsert_of_mem_eq {l : List Event} {e e1 : Event}
    (hs : List.Pairwise eventLt l) (hm : e1 ∈ l)
    (hk : e1.start_time = e.start_time ∧ e1.end_time = e.end_time) :
    btreeSetInsert l e = l := by
  induction l with
  | nil => simp at hm
  | cons x rest ih =>
    rcases List.pairwise_cons.mp hs with ⟨hall, htail⟩
    rcases List.mem_cons.mp hm with h | h
    · have hc : Event.cmp e x = .eq := by
        subst h
        exact Event.cmp_eq_eq.mpr ⟨hk.1.symm, hk.2.symm⟩
      simp [btreeSetInsert, hc]
    · have hxe1 : eventLt x e1 := hall e1 h
      have hxe : eventLt x e := by
        rcases hxe1 with h1 | ⟨h1, h2⟩
        · exact Or.inl (hk.1 ▸ h1)
        · exact Or.inr ⟨hk.1 ▸ h1, hk.2 ▸ h2⟩
      have hc : Event.cmp e x = .gt := Event.cmp_eq_gt.mpr hxe
      simp [btreeSetInsert, hc, ih htail h]

/-! ### Store well-formedness and its preservation -/

def WfStore (s : EventStore) : Prop :=
  List.Pairwise (fun p q => strLt p.1 q.1) s.actors ∧
  List.Pairwise (fun p q => strLt p.1 q.1) s.events ∧
  (∀ p ∈ s.events, List.Pairwise eventLt p.2) ∧
  btreeKeys s.actors = btreeKeys s.events

instance (s : EventStore) : Decidable (WfStore s) := by
  unfold WfStore
  infer_instance

theorem wf_default : WfStore EventStore.default := by
  refine ⟨List.Pairwise.nil, List.Pairwise.nil, ?_, rfl⟩
  intro p hp
  simp [EventStore.default] at hp

theorem keys_pairwise_of_wf {β : Type} {m : List (String × β)}
    (h : List.Pairwise (fun p q => strLt p.1 q.1) m) :
    List.Pairwise (fun a b => strLt a b) (btreeKeys m) :=
  List.pairwise_map.mpr h

theorem wf_register (s : EventStore) (a : Actor) (hwf : WfStore s) :
    WfStore (s.register_actor a).2 := by
  rcases hwf with ⟨hact, hev, hvals, hkeys⟩
  unfold EventStore.register_actor WfStore
  rcases hp : (btreeInsert s.actors a.identity a).2 with _ | w
  · have hlookA : btreeLookup s.actors a.identity = none := by
      rw [← btreeInsert_snd_eq_lookup a.identity a hact]
      exact hp
    have hnotmem : a.identity ∉ btreeKeys s.events :=
      hkeys ▸ btreeLookup_eq_none.mp hlookA
    have hlookE : btreeLookup s.events a.identity = none := btreeLookup_eq_none.mpr hnotmem
    have hq : (btreeInsert s.events a.identity ([] : List Event)).2 = none := by
      rw [btreeInsert_snd_eq_lookup a.identity ([] : List Event) hev]
      exact hlookE
    simp only [hp, hq]
    refine ⟨btreeInsert_pairwise _ _ hact, btreeInsert_pairwise _ _ hev, ?_, ?_⟩
    · intro p hpmem
      rcases mem_btreeInsert hpmem with h | h
      · simp [h]
      · exact hvals p h
    · rw [btreeKeys_insert, btreeKeys_insert, hkeys]
  · simp only [hp]
    refine ⟨btreeInsert_pairwise _ _ hact, hev, hvals, ?_⟩
    rw [btreeKeys_insert_of_snd_some hp, hkeys]

theorem wf_add_event (s : EventStore) (id : ActorId) (e : Event) (hwf : WfStore s) :
    WfStore (s.add_event id e).2 := by
  have hwf2 := hwf
  rcases hwf2 with ⟨hact, hev, hvals, hkeys⟩
  unfold EventStore.add_event
  rcases hl : btreeLookup s.events id with _ | l
  · simp only [hl]
    exact hwf
  · simp only [hl]
    have hmem : (id, l) ∈ s.events := btreeLookup_mem hl
    have hlsorted : List.Pairwise eventLt l := hvals (id, l) hmem
    unfold WfStore
    refine ⟨hact, btreeInsert_pairwise _ _ hev, ?_, ?_⟩
    · intro p hpmem
      rcases mem_btreeInsert hpmem with h | h
      · rw [h]
        exact btreeSetInsert_pairwise e hlsorted
      · exact hvals p h
    · rw [btreeKeys_insert, hkeys, insertKey_of_mem (keys_pairwise_of_wf hev)]
      exact List.mem_map.mpr ⟨(id, l), hmem, rfl⟩

theorem wf_applyOp (s : EventStore) (op : StoreOp) (hwf : WfStore s) :
    WfStore (applyOp s op) := by
  cases op with
  | reg a => exact wf_register s a hwf
  | add id e => exact wf_add_event s id e hwf

theorem wf_applyOps (ops : List StoreOp) :
    ∀ s : EventStore, WfStore s → WfStore (applyOps s ops) := by
  induction ops with
  | nil => intro s hs; exact hs
  | cons op rest ih =>
    intro s hs
    exact ih (applyOp s op) (wf_applyOp s op hs)

instance {ε α : Type} [DecidableEq ε] [DecidableEq α] : DecidableEq (Except ε α) := fun x y =>
  match x, y with
  | .error a, .error b =>
    if h : a = b then .isTrue (h ▸ rfl)
    else .isFalse (fun hc => h (Except.error.inj hc))
  | .error _, .ok _ => .isFalse (fun hc => Except.noConfusion hc)
  | .ok _, .error _ => .isFalse (fun hc => Except.noConfusion hc)
  | .ok a, .ok b =>
    if h : a = b then .isTrue (h ▸ rfl)
    else .isFalse (fun hc => h (Except.ok.inj hc))

/-! ### Claim theorems about the store -/

/-- C2 (amended): registering a duplicate identity fails with the
duplicate-actor error and leaves the events mapping and the actor key set
unchanged, but the actor mapping's value at that identity has been replaced by
the newly supplied actor (the source inserts before the `ensure!` check);
on success the actor is inserted into the actor mapping together with an empty
event set, all other keys untouched. -/
theorem register_actor_spec (s : EventStore) (a : Actor) (hwf : WfStore s) :
    (∀ old, btreeLookup s.actors a.identity = some old →
      (s.register_actor a).1 = .error .duplicateActor ∧
      ((s.register_actor a).2).events = s.events ∧
      btreeKeys ((s.register_actor a).2).actors = btreeKeys s.actors ∧
      btreeLookup ((s.register_actor a).2).actors a.identity = some a) ∧
    (btreeLookup s.actors a.identity = none →
      (s.register_actor a).1 = .ok a.identity ∧
      btreeLookup ((s.register_actor a).2).actors a.identity = some a ∧
      btreeLookup ((s.register_actor a).2).events a.identity = some [] ∧
      ∀ k, k ≠ a.identity →
        btreeLookup ((s.register_actor a).2).actors k = btreeLookup s.actors k ∧
        btreeLookup ((s.register_actor a).2).events k = btreeLookup s.events k) := by
  rcases hwf with ⟨hact, hev, hvals, hkeys⟩
  have hsnd := btreeInsert_snd_eq_lookup a.identity a hact
  constructor
  · intro old hold
    have hp : (btreeInsert s.actors a.identity a).2 = some old := by rw [hsnd]; exact hold
    unfold EventStore.register_actor
    simp only [hp]
    refine ⟨by trivial, by trivial, btreeKeys_insert_of_snd_some hp, btreeLookup_insert_self _ _ _⟩
  · intro hnone
    have hp : (btreeInsert s.actors a.identity a).2 = none := by rw [hsnd]; exact hnone
    have hlookE : btreeLookup s.events a.identity = none :=
      btreeLookup_eq_none.mpr (hkeys ▸ btreeLookup_eq_none.mp hnone)
    have hq : (btreeInsert s.events a.identity ([] : List Event)).2 = none := by
      rw [btreeInsert_snd_eq_lookup a.identity ([] : List Event) hev]
      exact hlookE
    unfold EventStore.register_actor
    simp only [hp, hq]
    refine ⟨by trivial, btreeLookup_insert_self _ _ _, btreeLookup_insert_self _ _ _, ?_⟩
    intro k hk
    exact ⟨btreeLookup_insert_ne _ _ _ _ hk, btreeLookup_insert_ne _ _ _ _ hk⟩

/-- C2 witness: concrete duplicate and fresh registrations. -/
theorem register_actor_spec_witness :
    ((⟨[("a", Actor.new "a")], [("a", [])]⟩ : EventStore).register_actor ⟨"a", some "t"⟩).1 =
      .error .duplicateActor ∧
    ((⟨[("a", Actor.new "a")], [("a", [])]⟩ : EventStore).register_actor ⟨"b", none⟩).1 =
      .ok "b" :=
  ⟨((register_actor_spec ⟨[("a", Actor.new "a")], [("a", [])]⟩ ⟨"a", some "t"⟩
      (by decide)).1 (Actor.new "a") (by decide)).1,
   ((register_actor_spec ⟨[("a", Actor.new "a")], [("a", [])]⟩ ⟨"b", none⟩
      (by decide)).2 (by decide)).1⟩

/-- C2 counterexample: the failed duplicate registration does mutate the
store — the stored actor value (here its tooltip) is replaced, so the claim
that the store is completely unchanged after the failed call is false. -/
theorem register_actor_duplicate_mutates :
    ((⟨[("a", Actor.new "a")], [("a", [])]⟩ : EventStore).register_actor ⟨"a", some "t"⟩).1 =
      .error .duplicateActor ∧
    ((⟨[("a", Actor.new "a")], [("a", [])]⟩ : EventStore).register_actor ⟨"a", some "t"⟩).2 ≠
      (⟨[("a", Actor.new "a")], [("a", [])]⟩ : EventStore) := by
  decide

/-- C4: adding an event whose `(start_time, end_time)` pair collides with an
event already stored for that actor returns success and leaves the store
(and hence the actor's event set) completely unchanged: the old event
survives and the new one is dropped, even when the two differ in fields,
value or tooltip. -/
theorem add_event_duplicate_key (s : EventStore) (id : ActorId) (e e1 : Event) (l : List Event)
    (hwf : WfStore s) (hl : btreeLookup s.events id = some l) (hm : e1 ∈ l)
    (hk : e1.start_time = e.start_time ∧ e1.end_time = e.end_time) :
    s.add_event id e = (.ok (), s) := by
  rcases hwf with ⟨hact, hev, hvals, hkeys⟩
  have hlsorted : List.Pairwise eventLt l := hvals (id, l) (btreeLookup_mem hl)
  have hset : btreeSetInsert l e = l := btreeSetInsert_of_mem_eq hlsorted hm hk
  unfold EventStore.add_event
  simp only [hl, hset, btreeInsert_same_value hev hl]

/-- C4 witness: a colliding event with different fields, value and tooltip is
dropped without an error. -/
theorem add_event_duplicate_key_witness :
    (⟨[("a", Actor.new "a")],
       [("a", [⟨[], .Span 0 (some 5), "x", none⟩])]⟩ : EventStore).add_event "a"
        ⟨[("fill", "red")], .Span 0 (some 5), "y", some "tip"⟩ =
      (.ok (), ⟨[("a", Actor.new "a")], [("a", [⟨[], .Span 0 (some 5), "x", none⟩])]⟩) :=
  add_event_duplicate_key _ "a" ⟨[("fill", "red")], .Span 0 (some 5), "y", some "tip"⟩
    ⟨[], .Span 0 (some 5), "x", none⟩ [⟨[], .Span 0 (some 5), "x", none⟩]
    (by decide) (by decide) (by decide) (by decide)

/-- Which identity a store operation registers, if any. -/
def regIdentity : StoreOp → Option String
  | .reg a => some a.identity
  | .add _ _ => none

theorem applyOp_lookup_none (s : EventStore) (op : StoreOp) (id : ActorId)
    (hreg : regIdentity op ≠ some id) (h : btreeLookup s.events id = none) :
    btreeLookup (applyOp s op).events id = none := by
  cases op with
  | reg a =>
    have hne : id ≠ a.identity := by
      intro he
      exact hreg (by simp [regIdentity, he])
    unfold applyOp EventStore.register_actor
    rcases hp : (btreeInsert s.actors a.identity a).2 with _ | w
    · rcases hq : (btreeInsert s.events a.identity ([] : List Event)).2 with _ | w2 <;>
        simp only [hp, hq] <;> rw [btreeLookup_insert_ne _ _ _ _ hne] <;> exact h
    · simp only [hp]
      exact h
  | add id2 e =>
    unfold applyOp EventStore.add_event
    rcases hl : btreeLookup s.events id2 with _ | l
    · simp only [hl]
      exact h
    · have hne : id ≠ id2 := by
        intro he
        rw [he, hl] at h
        exact Option.noConfusion h
      simp only [hl]
      rw [btreeLookup_insert_ne _ _ _ _ hne]
      exact h

theorem applyOps_lookup_none (ops : List StoreOp) (id : ActorId)
    (h : ∀ op ∈ ops, regIdentity op ≠ some id) :
    ∀ s : EventStore, btreeLookup s.events id = none →
      btreeLookup (applyOps s ops).events id = none := by
  induction ops with
  | nil => intro s hs; exact hs
  | cons op rest ih =>
    intro s hs
    exact ih (fun o ho => h o (List.mem_cons_of_mem _ ho)) (applyOp s op)
      (applyOp_lookup_none s op id (h op (List.mem_cons_self _ _)) hs)

/-- C6: on a store reachable from the empty store by operations that never
register `id`, both `add_event` and `events_for` fail with the unknown-actor
error, and the failed `add_event` leaves the store completely unmutated. -/
theorem unknown_actor_guard (ops : List StoreOp) (id : ActorId) (e : Event)
    (h : ∀ op ∈ ops, regIdentity op ≠ some id) :
    (applyOps EventStore.default ops).add_event id e =
      (.error (.unknownActor id), applyOps EventStore.default ops) ∧
    (applyOps EventStore.default ops).events_for id = .error (.unknownActor id) := by
  have hn : btreeLookup (applyOps EventStore.default ops).events id = none :=
    applyOps_lookup_none ops id h EventStore.default rfl
  unfold EventStore.add_event EventStore.events_for
  simp only [hn]
  exact ⟨by trivial, by trivial⟩

/-- C6 witness: a store with only actor a registered rejects id b. -/
theorem unknown_actor_guard_witness :
    (applyOps EventStore.default [.reg (Actor.new "a")]).add_event "b"
        ⟨[], .Span 0 none, "", none⟩ =
      (.error (.unknownActor "b"), applyOps EventStore.default [.reg (Actor.new "a")]) ∧
    (applyOps EventStore.default [.reg (Actor.new "a")]).events_for "b" =
      .error (.unknownActor "b") :=
  unknown_actor_guard [.reg (Actor.new "a")] "b" ⟨[], .Span 0 none, "", none⟩ (by decide)

/-- C5: on any store reachable from the empty store, `events_for` yields the
actor's events sorted strictly ascending by the `(start_time, end_time)` pair,
and the accessors satisfy the stated equations: `start_time` is the instant or
the span start; `end_time` is the instant itself, `start + duration` for a
bounded span, and `none` for an open span. -/
theorem events_for_sorted (ops : List StoreOp) (a : ActorId) (l : List Event)
    (h : (applyOps EventStore.default ops).events_for a = .ok l) :
    List.Pairwise eventLt l ∧
    ∀ e ∈ l, (∀ t, e.kind = .Instant t → e.start_time = t ∧ e.end_time = some t) ∧
      (∀ st d, e.kind = .Span st d →
        e.start_time = st ∧ e.end_time = d.map (fun n => st + (n : Int))) := by
  rcases wf_applyOps ops EventStore.default wf_default with ⟨hact, hev, hvals, hkeys⟩
  unfold EventStore.events_for at h
  rcases hl : btreeLookup (applyOps EventStore.default ops).events a with _ | l0
  · rw [hl] at h
    exact Except.noConfusion h
  · rw [hl] at h
    have hll : l0 = l := Except.ok.inj h
    subst hll
    refine ⟨hvals (a, l0) (btreeLookup_mem hl), ?_⟩
    intro e he
    constructor
    · intro t ht
      simp [Event.start_time, Event.end_time, ht]
    · intro st d hd
      rcases d with _ | n <;> simp [Event.start_time, Event.end_time, hd]

/-- C5 witness: two events added out of order come back sorted. -/
theorem events_for_sorted_witness :
    List.Pairwise eventLt
      [⟨[], .Span 1 (some 1), "", none⟩, ⟨[], .Span 5 (some 1), "", none⟩] ∧
    ∀ e ∈ [(⟨[], .Span 1 (some 1), "", none⟩ : Event), ⟨[], .Span 5 (some 1), "", none⟩],
      (∀ t, e.kind = .Instant t → e.start_time = t ∧ e.end_time = some t) ∧
      (∀ st d, e.kind = .Span st d →
        e.start_time = st ∧ e.end_time = d.map (fun n => st + (n : Int))) :=
  events_for_sorted
    [.reg (Actor.new "a"), .add "a" ⟨[], .Span 5 (some 1), "", none⟩,
     .add "a" ⟨[], .Span 1 (some 1), "", none⟩] "a"
    [⟨[], .Span 1 (some 1), "", none⟩, ⟨[], .Span 5 (some 1), "", none⟩] (by decide)

/-- C10: starting from the empty store, after every sequence of
`register_actor` and `add_event` calls — successful or failed — the key set of
the actors mapping equals the key set of the events mapping. -/
theorem store_keys_aligned (ops : List StoreOp) :
    btreeKeys (applyOps EventStore.default ops).actors =
      btreeKeys (applyOps EventStore.default ops).events := by
  rcases wf_applyOps ops EventStore.default wf_default with ⟨_, _, _, h⟩
  exact h

/-! ### analyzr-core/src/render.rs : configuration.
`f64` fields are modelled exactly by `ℚ`; the defaults are all dyadic, so the
model is exact on them. -/

structure RenderOpts where
  us_per_line : Nat
  sublines : Nat
  us_per_pixel : Nat
  pixels_per_actor : ℚ
  actor_margin : ℚ
  actor_name_padding : ℚ
  top_margin : ℚ
  side_margin : ℚ
  heading : String
deriving DecidableEq

/-- `impl Default for RenderOpts`. -/
def RenderOpts.default : RenderOpts :=
  { us_per_line := 1000000
    sublines := 10
    us_per_pixel := 10000
    pixels_per_actor := 20
    actor_margin := 1/2
    actor_name_padding := 5
    top_margin := 20
    side_margin := 20
    heading := "" }

structure Renderer where
  opts : RenderOpts
deriving DecidableEq

def Renderer.default : Renderer := ⟨RenderOpts.default⟩

def APPROX_FONT_HEIGHT : ℚ := 15

/-! ### serde_json, modelled at the level of JSON value trees.
The string layer of `serde_json::to_string` / `from_str` (and the svg crate's
comment framing that `load` strips with `c[5..c.len() - 4]`) is the external
serialisation transport; it is modelled as faithfully carrying the value tree
embedded in the comment node. -/

inductive Json
  | null
  | str (s : String)
  | int (n : Int)
  | rat (q : ℚ)
  | arr (items : List Json)
  | obj (entries : List (String × Json))

def encOptStr : Option String → Json
  | none => .null
  | some s => .str s

def encOptNat : Option Nat → Json
  | none => .null
  | some n => .int n

/-- serde externally-tagged encoding of `EventKind`. -/
def encKind : EventKind → Json
  | .Span s d => .obj [("Span", .arr [.int s, encOptNat d])]
  | .Instant t => .obj [("Instant", .int t)]

def encEvent (e : Event) : Json :=
  .obj [("fields", .obj (e.fields.map (fun p => (p.1, Json.str p.2)))),
        ("kind", encKind e.kind),
        ("value", .str e.value),
        ("tooltip", encOptStr e.tooltip)]

def encActor (a : Actor) : Json :=
  .obj [("identity", .str a.identity), ("tooltip", encOptStr a.tooltip)]

def encStore (s : EventStore) : Json :=
  .obj [("actors", .obj (s.actors.map (fun p => (p.1, encActor p.2)))),
        ("events", .obj (s.events.map (fun p => (p.1, Json.arr (p.2.map encEvent)))))]

def encOpts (o : RenderOpts) : Json :=
  .obj [("us_per_line", .int o.us_per_line),
        ("sublines", .int o.sublines),
        ("us_per_pixel", .int o.us_per_pixel),
        ("pixels_per_actor", .rat o.pixels_per_actor),
        ("actor_margin", .rat o.actor_margin),
        ("actor_name_padding", .rat o.actor_name_padding),
        ("top_margin", .rat o.top_margin),
        ("side_margin", .rat o.side_margin),
        ("heading", .str o.heading)]

/-- `serde_json::to_string(&(self, &events))` as a value tree. -/
def encodeState (r : Renderer) (s : EventStore) : Json :=
  .arr [.obj [("opts", encOpts r.opts)], encStore s]

/-! ### The scene graph produced by one render -/

structure SpanRect where
  width : ℚ
  height : ℚ
  x : ℚ
  y : ℚ
  attrs : List (String × String)
deriving DecidableEq

inductive LabelSide
  | left
  | right
deriving DecidableEq

structure ActorLabel where
  side : LabelSide
  x : ℚ
  y : ℚ
  name : String
deriving DecidableEq

inductive GNode
  | timeText (x : ℚ) (us : Int)
  | gridPath (x : ℚ) (height : ℚ) (subline : Bool)
  | actorGroup (actor : ActorId) (laneY : ℚ) (rects : List SpanRect) (label : Option ActorLabel)
deriving DecidableEq

inductive DocNode
  | comment (payload : Json)
  | styleDefs
  | headingText (x y : ℚ) (line : String)
  | mainGroup (startX headingHeight : ℚ) (children : List GNode)

structure Document where
  width : ℚ
  height : ℚ
  nodes : List DocNode

inductive RenderError
  | unimplementedInstant
  | stepZero
  | storeFailure (e : StoreError)
  | invalidActorId
deriving DecidableEq

/-! ### Rendering -/

/-- `Renderer::us_to_pixel`. -/
def Renderer.us_to_pixel (r : Renderer) (us : Int) : ℚ :=
  (us : ℚ) / (r.opts.us_per_pixel : ℚ)

/-- Rust `str::lines`: split at newline characters, a trailing final newline
producing no extra line. -/
def splitLines : List Char → List (List Char)
  | [] => []
  | c :: rest =>
    if c = '\n' then [] :: splitLines rest
    else
      match splitLines rest with
      | [] => [[c]]
      | l :: ls => (c :: l) :: ls

/-- `Renderer::calculate_heading_height`: the top margin, one line height to
reach the first baseline, one line height per heading line, and two further
blank line heights. -/
def Renderer.calculate_heading_height (r : Renderer) : ℚ :=
  let heading_start := r.opts.top_margin + APPROX_FONT_HEIGHT
  let lines := ((splitLines r.opts.heading.data).length : ℚ)
  heading_start + lines * APPROX_FONT_HEIGHT + 2 * APPROX_FONT_HEIGHT

/-- `Renderer::render_heading`: one text node per heading line, stepping the
baseline by one line height. -/
def headingTexts (side_margin : ℚ) : List (List Char) → ℚ → List DocNode
  | [], _ => []
  | line :: rest, y =>
    .headingText side_margin y (String.mk line) :: headingTexts side_margin rest (y + APPROX_FONT_HEIGHT)

/-- The grid start in `Renderer::render_lines`:
`first_event_time - (first_event_time % us_per_line as i64)` with Rust's
truncated remainder. -/
def firstBar (first_event_time : Int) (us_per_line : Nat) : Int :=
  first_event_time - first_event_time.tmod us_per_line

/-- The grid end in `Renderer::render_lines`:
`last_event_time + (last_event_time % us_per_line as i64)`. -/
def lastBar (last_event_time : Int) (us_per_line : Nat) : Int :=
  last_event_time + last_event_time.tmod us_per_line

/-- `(first..=last).step_by(step)` over `i64`. -/
def gridTicks (first last : Int) (step : Nat) : List Int :=
  if first ≤ last then
    (List.range ((last - first).toNat / step + 1)).map (fun i => first + (i : Int) * step)
  else []

/-- `Renderer::render_lines`.  A zero step (`us_per_line / sublines == 0`,
including `sublines == 0`) makes the Rust iteration panic, modelled as the
`stepZero` error. -/
def Renderer.render_lines (r : Renderer) (first_event_time last_event_time : Int)
    (box_height : ℚ) : Except RenderError (List GNode) :=
  let first_bar := firstBar first_event_time r.opts.us_per_line
  let last_bar := lastBar last_event_time r.opts.us_per_line
  let step := r.opts.us_per_line / r.opts.sublines
  if step = 0 then .error .stepZero
  else
    .ok ((gridTicks first_bar last_bar step).flatMap (fun x =>
      let scaled_x := r.us_to_pixel x
      if x.natAbs % r.opts.us_per_line = 0 then
        [GNode.timeText scaled_x x, GNode.gridPath scaled_x box_height false]
      else
        [GNode.gridPath scaled_x box_height true]))

/-- The attribute merge in `Renderer::render_actor`: each event field is
folded onto the rectangle attributes, concatenating with the current value
(empty when absent) separated by a space. -/
def mergeAttrs (attrs : List (String × String)) (fields : List (String × String)) :
    List (String × String) :=
  fields.foldl
    (fun acc p =>
      let current := (btreeLookup acc p.1).getD ""
      (btreeInsert acc p.1 (p.2 ++ " " ++ current)).1)
    attrs

/-- The event loop of `Renderer::render_actor`: every span becomes a
rectangle; an `Instant` event reaches the `unimplemented!()` branch; the
returned option is the start of the first event, to anchor the label. -/
def renderSpans (r : Renderer) (y box_width first_event_pixel : ℚ) :
    List Event → Except RenderError (List SpanRect × Option Int)
  | [] => .ok ([], none)
  | e :: rest =>
    match e.kind with
    | .Instant _ => .error .unimplementedInstant
    | .Span start duration =>
      let width :=
        match duration with
        | some d => r.us_to_pixel d
        | none => (first_event_pixel + box_width) - r.us_to_pixel start
      let rect : SpanRect :=
        { width := width
          height := r.opts.pixels_per_actor - 2 * r.opts.actor_margin
          x := r.us_to_pixel start
          y := y + r.opts.actor_margin
          attrs := mergeAttrs [] e.fields }
      match renderSpans r y box_width first_event_pixel rest with
      | .error err => .error err
      | .ok pr => .ok (rect :: pr.1, some start)

/-- `Renderer::render_actor`. -/
def Renderer.render_actor (r : Renderer) (events : EventStore)
    (y box_width first_event_pixel : ℚ) (actor : ActorId) : Except RenderError GNode :=
  match events.events_for actor with
  | .error e => .error (.storeFailure e)
  | .ok evs =>
    match renderSpans r y box_width first_event_pixel evs with
    | .error err => .error err
    | .ok pr =>
      match pr.2 with
      | none => .ok (.actorGroup actor y pr.1 none)
      | some start =>
        match events.get_actor actor with
        | none => .error .invalidActorId
        | some actorRec =>
          let p :=
            if r.us_to_pixel start < (first_event_pixel + box_width) / 2 then
              (LabelSide.left, r.opts.actor_name_padding)
            else
              (LabelSide.right, -r.opts.actor_name_padding)
          .ok (.actorGroup actor y pr.1
            (some { side := p.1
                    x := r.us_to_pixel start + p.2
                    y := y + r.opts.pixels_per_actor * (8/10)
                    name := actorRec.identity }))

/-- The actor loop of `Renderer::render`, advancing the lane origin by
`pixels_per_actor` per actor. -/
def renderActors (r : Renderer) (events : EventStore) (box_width first_event_pixel : ℚ) :
    List ActorId → ℚ → Except RenderError (List GNode)
  | [], _ => .ok []
  | a :: rest, y =>
    match r.render_actor events y box_width first_event_pixel a with
    | .error e => .error e
    | .ok g =>
      match renderActors r events box_width first_event_pixel rest
          (y + r.opts.pixels_per_actor) with
      | .error e => .error e
      | .ok gs => .ok (g :: gs)

/-- The time-domain lower bound in `Renderer::render`: the minimal start time,
clamped to at most zero; zero for an empty store. -/
def firstEventTime (s : EventStore) : Int :=
  match (s.all_events.map Event.start_time).min? with
  | none => 0
  | some m => if 0 < m then 0 else m

/-- The time-domain upper bound in `Renderer::render`: the maximal determinate
end time; zero when no event has one. -/
def lastEventTime (s : EventStore) : Int :=
  (((s.all_events).filterMap Event.end_time).max?).getD 0

/-- The actor collection in `Renderer::render`: each actor of the events map
paired with its first event, actors without events skipped. -/
def actorsWithFirst (s : EventStore) : List (ActorId × Event) :=
  s.actorIds.filterMap (fun a =>
    match s.events_for a with
    | .error _ => none
    | .ok l => l.head?.map (fun e => (a, e)))

/-- `actors.sort_by_key(|(_, event)| event.start_time())`: a stable sort on
the start time of the first event.  Rust's stable slice sort and insertion
sort agree on every input. -/
def laneWithFirst (s : EventStore) : List (ActorId × Event) :=
  List.insertionSort (fun p q => p.2.start_time ≤ q.2.start_time) (actorsWithFirst s)

/-- `Renderer::render`.  The scene graph records, in document order: the
embedded-state comment, the stylesheet, the heading text nodes, and the main
translated group holding grid lines and actor groups. -/
def Renderer.render (r : Renderer) (events : EventStore) : Except RenderError Document :=
  let first_event_time := firstEventTime events
  let last_event_time := lastEventTime events
  let actors := laneWithFirst events
  let heading_height := r.calculate_heading_height
  let box_width := r.us_to_pixel (last_event_time - first_event_time)
  let box_height := (actors.length : ℚ) * r.opts.pixels_per_actor
  match r.render_lines first_event_time last_event_time box_height with
  | .error e => .error e
  | .ok lineNodes =>
    let start_x := r.opts.side_margin +
      (if first_event_time < 0 then -(r.us_to_pixel first_event_time) else 0)
    match renderActors r events box_width (r.us_to_pixel first_event_time)
        (actors.map Prod.fst) 0 with
    | .error e => .error e
    | .ok actorNodes =>
      .ok { width := box_width + 2 * r.opts.side_margin
            height := box_height + heading_height + r.opts.top_margin
            nodes := [DocNode.comment (encodeState r events), DocNode.styleDefs] ++
              headingTexts r.opts.side_margin (splitLines r.opts.heading.data)
                (r.opts.top_margin + APPROX_FONT_HEIGHT) ++
              [DocNode.mainGroup start_x heading_height (lineNodes ++ actorNodes)] }

/-! ### Claim theorems about the grid and the heading -/

theorem tmod_nonpos_of_nonpos {a : Int} (b : Int) (h : a ≤ 0) : a.tmod b ≤ 0 := by
  cases a with
  | ofNat n =>
    have hn : n = 0 := Nat.le_zero.mp (Int.ofNat_le.mp h)
    subst hn
    simp [Int.zero_tmod]
  | negSucc n =>
    cases b with
    | ofNat m => exact Int.neg_nonpos_of_nonneg (Int.ofNat_nonneg _)
    | negSucc m => exact Int.neg_nonpos_of_nonneg (Int.ofNat_nonneg _)

/-- C3 (amended): `render_lines` starts the grid at `first_event_time` minus
its truncated remainder modulo `us_per_line` — which, the clamped bound being
nonpositive, rounds toward zero (upward) rather than downward — and ends it
at `last_event_time` plus its truncated remainder, which is not in general a
`us_per_line` boundary.  The gridline range reaches down to the first bound
exactly when `us_per_line` divides it, and reaches up to the last bound
exactly when that bound's truncated remainder is nonnegative. -/
theorem grid_bars_spec (f l : Int) (m : Nat) :
    firstBar f m = f - f.tmod m ∧
    lastBar l m = l + l.tmod m ∧
    (m : Int) ∣ firstBar f m ∧
    (f ≤ 0 → (firstBar f m ≤ f ↔ (m : Int) ∣ f)) ∧
    (l ≤ lastBar l m ↔ 0 ≤ l.tmod m) := by
  refine ⟨rfl, rfl, ?_, ?_, ?_⟩
  · refine ⟨f.tdiv m, ?_⟩
    have h := Int.tdiv_add_tmod f m
    unfold firstBar
    omega
  · intro hf
    have ht : f.tmod m ≤ 0 := tmod_nonpos_of_nonpos _ hf
    unfold firstBar
    constructor
    · intro h
      have h0 : (0 : Int) ≤ f.tmod m := by omega
      exact Int.dvd_of_tmod_eq_zero (le_antisymm ht h0)
    · intro hd
      rw [Int.tmod_eq_zero_of_dvd hd]
      omega
  · unfold lastBar
    constructor
    · intro h
      omega
    · intro h
      omega

/-- C3 counterexample: at `first_event_time = -3500000µs`,
`us_per_line = 1000000µs`, the computed grid start is `-3000000`, which is
neither the round-down boundary `-4000000` nor ≤ the bound, so the grid does
not cover the event range; and at `last_event_time = 2250000` the computed
grid end `2500000` is not a boundary at all. -/
theorem grid_bars_counterexample :
    firstBar (-3500000) 1000000 = -3000000 ∧
    lastBar 2250000 1000000 = 2500000 ∧
    ¬ firstBar (-3500000) 1000000 ≤ -3500000 ∧
    firstBar (-3500000) 1000000 ≠ -4000000 ∧
    lastBar 2250000 1000000 ≠ 3000000 := by
  decide

/-- C3 witness: the amended characterisation at the counterexample inputs. -/
theorem grid_bars_spec_witness :
    (-3500000 : Int) ≤ 0 ∧
    (firstBar (-3500000) 1000000 ≤ -3500000 ↔ (1000000 : Int) ∣ -3500000) :=
  ⟨by decide, ((grid_bars_spec (-3500000) 2250000 1000000).2.2.2.1 (by decide))⟩

/-- C8 (amended): the heading height is `top_margin` plus one line height for
the first baseline, plus one line height per heading line, plus two extra
blank line heights: one more line height than the claim states. -/
theorem heading_height_formula (r : Renderer) :
    r.calculate_heading_height =
      r.opts.top_margin +
        (((splitLines r.opts.heading.data).length : ℚ) + 1) * APPROX_FONT_HEIGHT +
        2 * APPROX_FONT_HEIGHT := by
  unfold Renderer.calculate_heading_height
  ring

/-- C8 counterexample: with the default options (empty heading, top margin
20), the code computes 65, but the claimed formula gives 20 + 0·15 + 2·15 =
50. -/
theorem heading_height_counterexample :
    Renderer.default.calculate_heading_height ≠
      RenderOpts.default.top_margin +
        ((splitLines RenderOpts.default.heading.data).length : ℚ) * APPROX_FONT_HEIGHT +
        2 * APPROX_FONT_HEIGHT := by
  have h0 : splitLines (RenderOpts.default.heading).data = [] := rfl
  simp only [Renderer.calculate_heading_height, Renderer.default, RenderOpts.default,
    APPROX_FONT_HEIGHT, h0, List.length_nil, Nat.cast_zero]
  norm_num

/-! ### Claim C9: totality of rendering over event kinds -/

def isInstant (e : Event) : Bool :=
  match e.kind with
  | .Instant _ => true
  | .Span _ _ => false

theorem btreeLookup_some_of_mem_keys {β : Type} {m : List (String × β)} {k : String}
    (h : k ∈ btreeKeys m) : ∃ v, btreeLookup m k = some v := by
  induction m with
  | nil => simp [btreeKeys] at h
  | cons p rest ih =>
    rcases p with ⟨k1, v1⟩
    by_cases hk : k = k1
    · exact ⟨v1, by simp [btreeLookup, hk]⟩
    · have h2 : k ∈ btreeKeys rest := by
        simp [btreeKeys] at h ⊢
        tauto
      rcases ih h2 with ⟨v, hv⟩
      exact ⟨v, by simp [btreeLookup, hk, hv]⟩

theorem renderSpans_all_spans {r : Renderer} {y bw fep : ℚ} {l : List Event}
    (h : ∀ e ∈ l, isInstant e = false) :
    ∃ pr, renderSpans r y bw fep l = .ok pr := by
  induction l with
  | nil => exact ⟨([], none), rfl⟩
  | cons e rest ih =>
    have he := h e (List.mem_cons_self _ _)
    rcases hk : e.kind with ⟨start, duration⟩ | t
    · rcases ih (fun x hx => h x (List.mem_cons_of_mem _ hx)) with ⟨pr, hpr⟩
      rcases hres : renderSpans r y bw fep (e :: rest) with err | pr2
      · simp only [renderSpans, hk, hpr] at hres
        exact Except.noConfusion hres
      · exact ⟨pr2, rfl⟩
    · rw [isInstant, hk] at he
      simp at he

theorem renderSpans_error_eq {r : Renderer} {y bw fep : ℚ} {l : List Event} {err : RenderError}
    (h : renderSpans r y bw fep l = .error err) : err = .unimplementedInstant := by
  induction l with
  | nil => simp [renderSpans] at h
  | cons e rest ih =>
    rcases hk : e.kind with ⟨start, duration⟩ | t
    · simp only [renderSpans, hk] at h
      rcases hrest : renderSpans r y bw fep rest with err2 | pr
      · rw [hrest] at h
        have he : err2 = err := Except.error.inj h
        rw [he] at hrest
        exact ih hrest
      · rw [hrest] at h
        exact Except.noConfusion h
    · simp only [renderSpans, hk] at h
      exact (Except.error.inj h).symm

theorem renderSpans_instant {r : Renderer} {y bw fep : ℚ} {l : List Event}
    (h : ∃ e ∈ l, isInstant e = true) :
    renderSpans r y bw fep l = .error .unimplementedInstant := by
  induction l with
  | nil =>
    rcases h with ⟨e, he, _⟩
    simp at he
  | cons e rest ih =>
    rcases hk : e.kind with ⟨start, duration⟩ | t
    · have hrest : ∃ e2 ∈ rest, isInstant e2 = true := by
        rcases h with ⟨e2, he2, hi⟩
        rcases List.mem_cons.mp he2 with he2 | he2
        · subst he2
          rw [isInstant, hk] at hi
          simp at hi
        · exact ⟨e2, he2, hi⟩
      simp only [renderSpans, hk, ih hrest]
    · simp only [renderSpans, hk]

theorem render_actor_unimpl_iff (r : Renderer) (events : EventStore) (y bw fep : ℚ)
    (a : ActorId) :
    r.render_actor events y bw fep a = .error .unimplementedInstant ↔
      ∃ l, events.events_for a = .ok l ∧ ∃ e ∈ l, isInstant e = true := by
  constructor
  · intro h
    unfold Renderer.render_actor at h
    rcases hef : events.events_for a with err | l
    · simp only [hef] at h
      simp at h
    · simp only [hef] at h
      refine ⟨l, rfl, ?_⟩
      by_contra hc
      have hall : ∀ e ∈ l, isInstant e = false := by
        intro e he
        rcases hb : isInstant e with _ | _
        · rfl
        · exact absurd ⟨e, he, hb⟩ hc
      rcases @renderSpans_all_spans r y bw fep l hall with ⟨pr, hpr⟩
      simp only [hpr] at h
      rcases pr with ⟨rects, ost⟩
      rcases ost with _ | start
      · simp at h
      · rcases hga : events.get_actor a with _ | arec
        · simp only [hga] at h
          simp at h
        · simp only [hga] at h
          simp at h
  · rintro ⟨l, hef, hinst⟩
    unfold Renderer.render_actor
    simp only [hef, renderSpans_instant hinst]

theorem render_actor_ok_or_unimpl (r : Renderer) (events : EventStore) (y bw fep : ℚ)
    (a : ActorId) (hl : ∃ l, events.events_for a = .ok l)
    (hact : ∃ w, events.get_actor a = some w) :
    (∃ g, r.render_actor events y bw fep a = .ok g) ∨
      r.render_actor events y bw fep a = .error .unimplementedInstant := by
  rcases hl with ⟨l, hef⟩
  unfold Renderer.render_actor
  simp only [hef]
  rcases hsp : renderSpans r y bw fep l with err | pr
  · right
    have herr := renderSpans_error_eq hsp
    subst herr
    simp only [hsp]
  · left
    rcases pr with ⟨rects, ost⟩
    rcases ost with _ | start
    · simp only [hsp]
      exact ⟨_, rfl⟩
    · rcases hact with ⟨w, hga⟩
      simp only [hsp, hga]
      exact ⟨_, rfl⟩

theorem renderActors_unimpl (r : Renderer) (events : EventStore) (bw fep : ℚ) :
    ∀ (ids : List ActorId) (y : ℚ),
      (∀ a ∈ ids, (∃ l, events.events_for a = .ok l) ∧ ∃ w, events.get_actor a = some w) →
      (∃ a ∈ ids, ∃ l, events.events_for a = .ok l ∧ ∃ e ∈ l, isInstant e = true) →
      renderActors r events bw fep ids y = .error .unimplementedInstant := by
  intro ids
  induction ids with
  | nil =>
    intro y _ h
    rcases h with ⟨a, ha, _⟩
    simp at ha
  | cons a rest ih =>
    intro y hall hex
    by_cases hinst : ∃ l, events.events_for a = .ok l ∧ ∃ e ∈ l, isInstant e = true
    · have h1 : r.render_actor events y bw fep a = .error .unimplementedInstant :=
        (render_actor_unimpl_iff r events y bw fep a).mpr hinst
      unfold renderActors
      simp only [h1]
    · have hmem := hall a (List.mem_cons_self _ _)
      rcases render_actor_ok_or_unimpl r events y bw fep a hmem.1 hmem.2 with ⟨g, hg⟩ | hba
      · have hex2 : ∃ a2 ∈ rest, ∃ l, events.events_for a2 = .ok l ∧
            ∃ e ∈ l, isInstant e = true := by
          rcases hex with ⟨a2, ha2, hx⟩
          rcases List.mem_cons.mp ha2 with ha2 | ha2
          · exact absurd (ha2 ▸ hx) hinst
          · exact ⟨a2, ha2, hx⟩
        unfold renderActors
        simp only [hg, ih (y + r.opts.pixels_per_actor)
          (fun a2 ha2 => hall a2 (List.mem_cons_of_mem _ ha2)) hex2]
      · exact absurd ((render_actor_unimpl_iff r events y bw fep a).mp hba) hinst

theorem renderActors_no_instant (r : Renderer) (events : EventStore) (bw fep : ℚ)
    (hall : ∀ p ∈ events.events, ∀ e ∈ p.2, isInstant e = false) :
    ∀ (ids : List ActorId) (y : ℚ),
      renderActors r events bw fep ids y ≠ .error .unimplementedInstant := by
  intro ids
  induction ids with
  | nil =>
    intro y h
    simp [renderActors] at h
  | cons a rest ih =>
    intro y h
    unfold renderActors at h
    rcases hra : r.render_actor events y bw fep a with err | g
    · simp only [hra] at h
      have herr : err = .unimplementedInstant := Except.error.inj h
      subst herr
      rcases (render_actor_unimpl_iff r events y bw fep a).mp hra with ⟨l, hef, e, hel, hi⟩
      unfold EventStore.events_for at hef
      rcases hlk : btreeLookup events.events a with _ | l0
      · rw [hlk] at hef
        exact Except.noConfusion hef
      · rw [hlk] at hef
        have hl0 : l0 = l := Except.ok.inj hef
        subst hl0
        rw [hall (a, l0) (btreeLookup_mem hlk) e hel] at hi
        exact Bool.noConfusion hi
    · simp only [hra] at h
      rcases hrest : renderActors r events bw fep rest (y + r.opts.pixels_per_actor)
          with err2 | gs
      · simp only [hrest] at h
        have herr : err2 = .unimplementedInstant := Except.error.inj h
        exact ih _ (by rw [hrest, herr])
      · simp only [hrest] at h
        exact Except.noConfusion h

theorem render_lines_error_eq {r : Renderer} {f l : Int} {bh : ℚ} {err : RenderError}
    (h : r.render_lines f l bh = .error err) : err = .stepZero := by
  unfold Renderer.render_lines at h
  by_cases hs : r.opts.us_per_line / r.opts.sublines = 0
  · rw [if_pos hs] at h
    exact (Except.error.inj h).symm
  · rw [if_neg hs] at h
    exact Except.noConfusion h

theorem mem_laneWithFirst_eventsFor {s : EventStore} {p : ActorId × Event}
    (h : p ∈ laneWithFirst s) : ∃ l, s.events_for p.1 = .ok l := by
  have hmem : p ∈ actorsWithFirst s := ((List.perm_insertionSort _ _).mem_iff).mp h
  rcases List.mem_filterMap.mp hmem with ⟨a, _, hfa⟩
  rcases hef : s.events_for a with err | l
  · simp only [hef] at hfa
    simp at hfa
  · simp only [hef] at hfa
    rcases hh : l.head? with _ | e0
    · simp only [hh] at hfa
      simp at hfa
    · simp only [hh] at hfa
      have hpa : (a, e0) = p := by simpa using hfa
      refine ⟨l, ?_⟩
      rw [← hpa]
      exact hef

/-- C9: rendering is total over `Span` events and aborts on `Instant` events:
a store whose events are all spans never reaches the `unimplemented!()`
branch; a store in which some (necessarily lane-assigned) actor holds an
`Instant` event makes the render reach that branch and abort, rather than
silently skipping the event.  The second part assumes a nonzero grid step
(otherwise the render aborts earlier in `render_lines`) and a store whose
events keys are sorted and backed by registered actors, as every reachable
store is. -/
theorem instant_rendering (r : Renderer) (s : EventStore) :
    ((∀ p ∈ s.events, ∀ e ∈ p.2, isInstant e = false) →
      r.render s ≠ .error .unimplementedInstant) ∧
    (r.opts.us_per_line / r.opts.sublines ≠ 0 →
      List.Pairwise (fun p q => strLt p.1 q.1) s.events →
      (∀ k ∈ btreeKeys s.events, k ∈ btreeKeys s.actors) →
      (∃ p ∈ s.events, ∃ e ∈ p.2, isInstant e = true) →
      r.render s = .error .unimplementedInstant) := by
  constructor
  · intro hall h
    simp only [Renderer.render] at h
    split at h
    next err heq =>
      have herr : err = .unimplementedInstant := Except.error.inj h
      subst herr
      exact RenderError.noConfusion (render_lines_error_eq heq)
    next ln heq =>
      split at h
      next err2 heq2 =>
        have herr : err2 = .unimplementedInstant := Except.error.inj h
        exact renderActors_no_instant r s _ _ hall _ 0 (herr ▸ heq2)
      next gs heq2 =>
        exact Except.noConfusion h
  · intro hstep hev hsub hex
    have hallIds : ∀ a ∈ (laneWithFirst s).map Prod.fst,
        (∃ l, s.events_for a = .ok l) ∧ ∃ w, s.get_actor a = some w := by
      intro a ha
      rcases List.mem_map.mp ha with ⟨p, hp, hpa⟩
      rcases mem_laneWithFirst_eventsFor hp with ⟨l, hef⟩
      have hlk : btreeLookup s.events p.1 = some l := by
        unfold EventStore.events_for at hef
        rcases hlk0 : btreeLookup s.events p.1 with _ | l0
        · rw [hlk0] at hef
          exact Except.noConfusion hef
        · rw [hlk0] at hef
          rw [Except.ok.inj hef]
      have hkeys : p.1 ∈ btreeKeys s.events :=
        List.mem_map.mpr ⟨(p.1, l), btreeLookup_mem hlk, rfl⟩
      rcases btreeLookup_some_of_mem_keys (hsub p.1 hkeys) with ⟨w, hw⟩
      exact hpa ▸ ⟨⟨l, hef⟩, ⟨w, hw⟩⟩
    have hexIds : ∃ a ∈ (laneWithFirst s).map Prod.fst,
        ∃ l, s.events_for a = .ok l ∧ ∃ e ∈ l, isInstant e = true := by
      rcases hex with ⟨p0, hp0, e0, he0, hi0⟩
      rcases p0 with ⟨a0, l0⟩
      have hlk : btreeLookup s.events a0 = some l0 := btreeLookup_of_mem hev hp0
      have hef : s.events_for a0 = .ok l0 := by
        unfold EventStore.events_for
        rw [hlk]
      rcases l0 with _ | ⟨eh, lt⟩
      · simp at he0
      · have hfa : (match s.events_for a0 with
            | .error _ => none
            | .ok l => l.head?.map (fun e => (a0, e))) = some (a0, eh) := by
          rw [hef]
          rfl
        have haIds : a0 ∈ s.actorIds :=
          List.mem_map.mpr ⟨(a0, eh :: lt), hp0, rfl⟩
        have hmemf : (a0, eh) ∈ actorsWithFirst s :=
          List.mem_filterMap.mpr ⟨a0, haIds, hfa⟩
        have hmeml : (a0, eh) ∈ laneWithFirst s :=
          ((List.perm_insertionSort _ _).mem_iff).mpr hmemf
        exact ⟨a0, List.mem_map.mpr ⟨(a0, eh), hmeml, rfl⟩, eh :: lt, hef, e0, he0, hi0⟩
    have hra := renderActors_unimpl r s
      (r.us_to_pixel (lastEventTime s - firstEventTime s))
      (r.us_to_pixel (firstEventTime s))
      ((laneWithFirst s).map Prod.fst) 0 hallIds hexIds
    have hlines : r.render_lines (firstEventTime s) (lastEventTime s)
        (((laneWithFirst s).length : ℚ) * r.opts.pixels_per_actor) =
          .ok ((gridTicks (firstBar (firstEventTime s) r.opts.us_per_line)
              (lastBar (lastEventTime s) r.opts.us_per_line)
              (r.opts.us_per_line / r.opts.sublines)).flatMap (fun x =>
            if x.natAbs % r.opts.us_per_line = 0 then
              [GNode.timeText (r.us_to_pixel x) x,
               GNode.gridPath (r.us_to_pixel x)
                 (((laneWithFirst s).length : ℚ) * r.opts.pixels_per_actor) false]
            else
              [GNode.gridPath (r.us_to_pixel x)
                (((laneWithFirst s).length : ℚ) * r.opts.pixels_per_actor) true])) := by
      unfold Renderer.render_lines
      rw [if_neg hstep]
    simp only [Renderer.render, hlines, hra]

/-- C9 witness: a one-actor all-span store renders without reaching the
unimplemented branch; swapping in an Instant event aborts there. -/
theorem instant_rendering_witness :
    Renderer.default.render
        ⟨[("a", Actor.new "a")], [("a", [⟨[], .Span 0 (some 5), "", none⟩])]⟩ ≠
      .error .unimplementedInstant ∧
    Renderer.default.render
        ⟨[("a", Actor.new "a")], [("a", [⟨[], .Instant 3, "", none⟩])]⟩ =
      .error .unimplementedInstant :=
  ⟨(instant_rendering Renderer.default
      ⟨[("a", Actor.new "a")], [("a", [⟨[], .Span 0 (some 5), "", none⟩])]⟩).1 (by decide),
   (instant_rendering Renderer.default
      ⟨[("a", Actor.new "a")], [("a", [⟨[], .Instant 3, "", none⟩])]⟩).2
      (by decide) (by decide) (by decide) (by decide)⟩

/-! ### Claim C7: lane assignment and box height -/

/-- The order in which lanes are assigned: by start time of the first event,
ties broken by the events-map key order. -/
def laneLex (p q : ActorId × Event) : Prop :=
  p.2.start_time < q.2.start_time ∨
    (p.2.start_time = q.2.start_time ∧ strLt p.1 q.1)

theorem orderedInsert_lex (x : ActorId × Event) :
    ∀ l : List (ActorId × Event),
      List.Pairwise laneLex l →
      (∀ y ∈ l, strLt x.1 y.1) →
      List.Pairwise laneLex
        (List.orderedInsert (fun p q => p.2.start_time ≤ q.2.start_time) x l) := by
  intro l
  induction l with
  | nil =>
    intro _ _
    simp [List.orderedInsert]
  | cons b bs ih =>
    intro hp hall
    rcases List.pairwise_cons.mp hp with ⟨hballs, htail⟩
    by_cases hr : x.2.start_time ≤ b.2.start_time
    · rw [List.orderedInsert, if_pos hr]
      refine List.Pairwise.cons ?_ hp
      intro y hy
      rcases List.mem_cons.mp hy with hy | hy
      · subst hy
        rcases lt_or_eq_of_le hr with h | h
        · exact Or.inl h
        · exact Or.inr ⟨h, hall y (List.mem_cons_self _ _)⟩
      · have hby : laneLex b y := hballs y hy
        have hbyle : b.2.start_time ≤ y.2.start_time := by
          rcases hby with h | ⟨h, _⟩
          · exact le_of_lt h
          · exact le_of_eq h
        rcases lt_or_eq_of_le (le_trans hr hbyle) with h | h
        · exact Or.inl h
        · exact Or.inr ⟨h, hall y (List.mem_cons_of_mem _ hy)⟩
    · rw [List.orderedInsert, if_neg hr]
      have hbx : b.2.start_time < x.2.start_time := not_le.mp hr
      refine List.Pairwise.cons ?_
        (ih htail (fun y hy => hall y (List.mem_cons_of_mem _ hy)))
      intro y hy
      rcases (List.mem_orderedInsert _).mp hy with hy | hy
      · subst hy
        exact Or.inl hbx
      · exact hballs y hy

theorem insertionSort_lex (l : List (ActorId × Event))
    (h : List.Pairwise (fun p q => strLt p.1 q.1) l) :
    List.Pairwise laneLex
      (List.insertionSort (fun p q => p.2.start_time ≤ q.2.start_time) l) := by
  induction l with
  | nil => simp [List.insertionSort]
  | cons x rest ih =>
    rcases List.pairwise_cons.mp h with ⟨hall, htail⟩
    rw [List.insertionSort]
    apply orderedInsert_lex x _ (ih htail)
    intro y hy
    exact hall y (((List.perm_insertionSort _ rest).mem_iff).mp hy)

theorem actorsWithFirst_eq (s : EventStore)
    (hev : List.Pairwise (fun p q => strLt p.1 q.1) s.events) :
    actorsWithFirst s =
      s.events.filterMap (fun p => p.2.head?.map (fun e => (p.1, e))) := by
  unfold actorsWithFirst EventStore.actorIds btreeKeys
  rw [List.filterMap_map]
  apply List.filterMap_congr
  intro p hp
  rcases p with ⟨a, l⟩
  have hef : s.events_for a = .ok l := by
    unfold EventStore.events_for
    rw [btreeLookup_of_mem hev hp]
  simp only [Function.comp, hef]

theorem actorsWithFirst_pairwise (s : EventStore)
    (hev : List.Pairwise (fun p q => strLt p.1 q.1) s.events) :
    List.Pairwise (fun p q => strLt p.1 q.1) (actorsWithFirst s) := by
  rw [actorsWithFirst_eq s hev]
  apply List.Pairwise.filterMap _ ?_ hev
  intro p q hpq x hx y hy
  rcases p with ⟨a, l⟩
  rcases q with ⟨a2, l2⟩
  rcases l with _ | ⟨e, t⟩
  · simp at hx
  · rcases l2 with _ | ⟨e2, t2⟩
    · simp at hy
    · simp at hx hy
      rw [← hx, ← hy]
      exact hpq

theorem laneWithFirst_length (s : EventStore)
    (hev : List.Pairwise (fun p q => strLt p.1 q.1) s.events) :
    (laneWithFirst s).length = (s.events.filter (fun p => !p.2.isEmpty)).length := by
  have h1 : (laneWithFirst s).length = (actorsWithFirst s).length :=
    (List.perm_insertionSort _ _).length_eq
  rw [h1, actorsWithFirst_eq s hev, List.length_filterMap_eq_countP,
    ← List.countP_eq_length_filter]
  apply List.countP_congr
  intro p hp
  rcases p with ⟨a, l⟩
  rcases l with _ | ⟨e, t⟩ <;> simp

/-- The lane data visible in an actor group node. -/
def gLane : GNode → Option (ActorId × ℚ)
  | .actorGroup a y _ _ => some (a, y)
  | _ => none

/-- The actor lanes of a rendered document, in document order. -/
def docActorLanes (d : Document) : List (ActorId × ℚ) :=
  d.nodes.flatMap (fun n =>
    match n with
    | DocNode.mainGroup _ _ ch => ch.filterMap gLane
    | _ => [])

/-- The lane origins produced by the actor loop: one lane per actor,
top-to-bottom, each `pixels_per_actor` below the previous. -/
def lanesFrom (ppa : ℚ) : List ActorId → ℚ → List (ActorId × ℚ)
  | [], _ => []
  | a :: rest, y => (a, y) :: lanesFrom ppa rest (y + ppa)

theorem render_actor_ok_shape {r : Renderer} {events : EventStore} {y bw fep : ℚ}
    {a : ActorId} {g : GNode} (h : r.render_actor events y bw fep a = .ok g) :
    ∃ rects lbl, g = .actorGroup a y rects lbl := by
  unfold Renderer.render_actor at h
  rcases hef : events.events_for a with err | l
  · simp only [hef] at h
    exact Except.noConfusion h
  · simp only [hef] at h
    rcases hsp : renderSpans r y bw fep l with err | pr
    · simp only [hsp] at h
      exact Except.noConfusion h
    · simp only [hsp] at h
      rcases pr with ⟨rects, ost⟩
      rcases ost with _ | start
      · exact ⟨rects, none, (Except.ok.inj h).symm⟩
      · rcases hga : events.get_actor a with _ | w
        · simp only [hga] at h
          exact Except.noConfusion h
        · simp only [hga] at h
          exact ⟨rects, _, (Except.ok.inj h).symm⟩

theorem renderActors_lanes (r : Renderer) (events : EventStore) (bw fep : ℚ) :
    ∀ (ids : List ActorId) (y : ℚ) (gs : List GNode),
      renderActors r events bw fep ids y = .ok gs →
      gs.filterMap gLane = lanesFrom r.opts.pixels_per_actor ids y := by
  intro ids
  induction ids with
  | nil =>
    intro y gs h
    have hgs : gs = [] := (Except.ok.inj h).symm
    subst hgs
    rfl
  | cons a rest ih =>
    intro y gs h
    unfold renderActors at h
    rcases hra : r.render_actor events y bw fep a with err | g
    · simp only [hra] at h
      exact Except.noConfusion h
    · simp only [hra] at h
      rcases hrest : renderActors r events bw fep rest (y + r.opts.pixels_per_actor)
          with err | gs2
      · simp only [hrest] at h
        exact Except.noConfusion h
      · simp only [hrest] at h
        have hgs : gs = g :: gs2 := (Except.ok.inj h).symm
        subst hgs
        rcases render_actor_ok_shape hra with ⟨rects, lbl, hg⟩
        subst hg
        rw [show List.filterMap gLane (GNode.actorGroup a y rects lbl :: gs2) =
            (a, y) :: List.filterMap gLane gs2 from by simp [gLane]]
        rw [ih _ _ hrest]
        rfl

theorem render_lines_no_lanes {r : Renderer} {f l : Int} {bh : ℚ} {ln : List GNode}
    (h : r.render_lines f l bh = .ok ln) : ∀ g ∈ ln, gLane g = none := by
  unfold Renderer.render_lines at h
  by_cases hs : r.opts.us_per_line / r.opts.sublines = 0
  · rw [if_pos hs] at h
    exact Except.noConfusion h
  · rw [if_neg hs] at h
    intro g hg
    rw [← Except.ok.inj h] at hg
    rcases List.mem_flatMap.mp hg with ⟨x, hx, hgx⟩
    by_cases hlab : x.natAbs % r.opts.us_per_line = 0
    · simp [hlab] at hgx
      rcases hgx with h1 | h1 <;> rw [h1] <;> rfl
    · simp [hlab] at hgx
      rw [hgx]
      rfl

theorem headingTexts_flat (sm : ℚ) :
    ∀ (lines : List (List Char)) (y : ℚ),
      (headingTexts sm lines y).flatMap (fun n =>
        match n with
        | DocNode.mainGroup _ _ ch => ch.filterMap gLane
        | _ => []) = [] := by
  intro lines
  induction lines with
  | nil =>
    intro y
    rfl
  | cons line rest ih =>
    intro y
    rw [headingTexts, List.flatMap_cons, ih (y + APPROX_FONT_HEIGHT)]
    rfl

theorem lanesFrom_getElem (ppa : ℚ) :
    ∀ (ids : List ActorId) (y0 : ℚ) (i : Nat),
      (lanesFrom ppa ids y0)[i]? = ids[i]?.map (fun a => (a, y0 + i * ppa)) := by
  intro ids
  induction ids with
  | nil =>
    intro y0 i
    simp [lanesFrom]
  | cons a rest ih =>
    intro y0 i
    cases i with
    | zero => simp [lanesFrom]
    | succ n =>
      rw [show lanesFrom ppa (a :: rest) y0 = (a, y0) :: lanesFrom ppa rest (y0 + ppa) from rfl]
      rw [show ((a, y0) :: lanesFrom ppa rest (y0 + ppa))[n + 1]? =
          (lanesFrom ppa rest (y0 + ppa))[n]? from by simp]
      rw [ih (y0 + ppa) n]
      rw [show (a :: rest)[n + 1]? = rest[n]? from by simp]
      rcases hrn : rest[n]? with _ | a2
      · rfl
      · show some (a2, y0 + ppa + (n : ℚ) * ppa) = some (a2, y0 + ((n + 1 : Nat) : ℚ) * ppa)
        have h2 : y0 + ppa + (n : ℚ) * ppa = y0 + ((n + 1 : Nat) : ℚ) * ppa := by
          push_cast
          ring
        rw [h2]

/-- C7: only actors with at least one event contribute to the layout.  The
box height multiplies `pixels_per_actor` by the number of actors whose event
set is nonempty; the lane list contains exactly those actors, ordered by the
start time of their first event with ties broken by the events-map key order
(lexicographic on the identity string); a successful render stacks one group
per lane top-to-bottom at offsets 0, ppa, 2·ppa, …, and the document height
adds the heading height and top margin to the box height. -/
theorem lane_layout (r : Renderer) (s : EventStore) (hwf : WfStore s) :
    ((laneWithFirst s).length : ℚ) * r.opts.pixels_per_actor =
      r.opts.pixels_per_actor * ((s.events.filter (fun p => !p.2.isEmpty)).length : ℚ) ∧
    (∀ a : ActorId, a ∈ (laneWithFirst s).map Prod.fst ↔
      ∃ l, btreeLookup s.events a = some l ∧ l ≠ []) ∧
    List.Pairwise laneLex (laneWithFirst s) ∧
    (∀ i : Nat,
      (lanesFrom r.opts.pixels_per_actor ((laneWithFirst s).map Prod.fst) 0)[i]? =
        (((laneWithFirst s).map Prod.fst)[i]?).map
          (fun a => (a, (0 : ℚ) + (i : ℚ) * r.opts.pixels_per_actor))) ∧
    ∀ doc, r.render s = .ok doc →
      docActorLanes doc =
        lanesFrom r.opts.pixels_per_actor ((laneWithFirst s).map Prod.fst) 0 ∧
      doc.height = ((laneWithFirst s).length : ℚ) * r.opts.pixels_per_actor +
        r.calculate_heading_height + r.opts.top_margin := by
  rcases hwf with ⟨hact, hev, hvals, hkeys⟩
  refine ⟨?_, ?_, ?_, ?_, ?_⟩
  · rw [laneWithFirst_length s hev]
    ring
  · intro a
    constructor
    · intro ha
      rcases List.mem_map.mp ha with ⟨p, hp, hpa⟩
      have hmem : p ∈ actorsWithFirst s := ((List.perm_insertionSort _ _).mem_iff).mp hp
      rw [actorsWithFirst_eq s hev] at hmem
      rcases List.mem_filterMap.mp hmem with ⟨q, hq, hfq⟩
      rcases q with ⟨a0, l0⟩
      rcases l0 with _ | ⟨e, t⟩
      · simp at hfq
      · have hpq : (a0, e) = p := by simpa using hfq
        have ha0 : a0 = a := by rw [← hpa, ← hpq]
        refine ⟨e :: t, ?_, by simp⟩
        rw [← ha0]
        exact btreeLookup_of_mem hev hq
    · rintro ⟨l, hlk, hne⟩
      rcases l with _ | ⟨e, t⟩
      · exact absurd rfl hne
      · have hq : (a, e :: t) ∈ s.events := btreeLookup_mem hlk
        have hmem : (a, e) ∈ actorsWithFirst s := by
          rw [actorsWithFirst_eq s hev]
          exact List.mem_filterMap.mpr ⟨(a, e :: t), hq, rfl⟩
        exact List.mem_map.mpr
          ⟨(a, e), ((List.perm_insertionSort _ _).mem_iff).mpr hmem, rfl⟩
  · exact insertionSort_lex _ (actorsWithFirst_pairwise s hev)
  · intro i
    exact lanesFrom_getElem r.opts.pixels_per_actor _ 0 i
  · intro doc h
    simp only [Renderer.render] at h
    split at h
    next err heq => exact Except.noConfusion h
    next ln heq =>
      split at h
      next err2 heq2 => exact Except.noConfusion h
      next gs heq2 =>
        have hdoc := Except.ok.inj h
        subst hdoc
        constructor
        · unfold docActorLanes
          simp only [List.flatMap_append, List.flatMap_cons, List.flatMap_nil,
            headingTexts_flat, List.nil_append, List.append_nil]
          rw [List.filterMap_append,
            List.filterMap_eq_nil_iff.mpr (render_lines_no_lanes heq), List.nil_append]
          exact renderActors_lanes r s _ _ _ _ _ heq2
        · rfl

/-- C7 witness: a concrete two-actor store; the lane list is sorted by first
start time with the later-registered actor first, and the box height counts
both actors. -/
theorem lane_layout_witness :
    ((laneWithFirst (⟨[("A", Actor.new "A"), ("B", Actor.new "B")],
        [("A", [⟨[], .Span 10 (some 1), "", none⟩]),
         ("B", [⟨[], .Span (-5) (some 1), "", none⟩])]⟩ : EventStore)).length : ℚ) *
        Renderer.default.opts.pixels_per_actor =
      Renderer.default.opts.pixels_per_actor *
        (((⟨[("A", Actor.new "A"), ("B", Actor.new "B")],
            [("A", [⟨[], .Span 10 (some 1), "", none⟩]),
             ("B", [⟨[], .Span (-5) (some 1), "", none⟩])]⟩ : EventStore).events.filter
          (fun p => !p.2.isEmpty)).length : ℚ) ∧
    List.Pairwise laneLex (laneWithFirst (⟨[("A", Actor.new "A"), ("B", Actor.new "B")],
        [("A", [⟨[], .Span 10 (some 1), "", none⟩]),
         ("B", [⟨[], .Span (-5) (some 1), "", none⟩])]⟩ : EventStore)) :=
  ⟨(lane_layout Renderer.default _ (by decide)).1,
   (lane_layout Renderer.default _ (by decide)).2.2.1⟩

/-! ### Claim C1: the self-describing artifact round-trip.
The decoders below model `serde_json::from_str::<(Renderer, EventStore)>`
applied to the payload recovered from the first comment node. -/

